import Mathlib

/-!
Shallow embedding of the Xamarin iOS UITest step (`main.go`).

The Go program orchestrates: simulator resolution, building the solution,
matching test projects to application-bundle outputs, invoking the nunit
test runner per matched pair, extracting a failure message from the produced
result log, and publishing result tokens through `envman`.

Conventions of the embedding:
- Go maps iterated with `range` are modelled as association lists
  `List (String × α)`; the list order stands for the (unspecified) iteration
  order, and theorems quantify over it.
- `strings.TrimSpace` is modelled by `trimStr` (ASCII whitespace), string
  splitting by structural recursion over the character list, so that every
  definition reduces in the kernel.
- The hashicorp `go-version` library is modelled for plain dotted numeric
  versions (the shape of simulator OS-version keys): `NewVersion` parses
  `d(.d)*` into numeric segments padded to at least three components, and
  `compareSegs` is the zero-padded multi-component numeric comparison used
  by `Version.GreaterThan`.
- External effects (envman exports, `os.Setenv`, spawning the test runner,
  reading the result-log file) are modelled as an event trace; collaborator
  results (builder, simulator directory, filesystem) are inputs in `MainEnv`.
  Logging has no observable effect and is not modelled.
-/

/-- A whitespace character in the sense of `strings.TrimSpace` (ASCII part). -/
def isSpaceChar (c : Char) : Bool :=
  c = ' ' || c = '\t' || c = '\n' || c = '\r'

/-- Trim leading and trailing whitespace from a character list. -/
def trimChars (cs : List Char) : List Char :=
  ((cs.dropWhile isSpaceChar).reverse.dropWhile isSpaceChar).reverse

/-- Model of Go `strings.TrimSpace`. -/
def trimStr (s : String) : String :=
  ⟨trimChars s.toList⟩

/-- Model of Go `strings.HasPrefix p s` (note: argument order is prefix first). -/
def strHasPre (p s : String) : Bool :=
  p.toList.isPrefixOf s.toList

/-- Split a character list at every occurrence of the given separator character. -/
def splitAtChar (sep : Char) : List Char → List (List Char)
  | [] => [[]]
  | c :: cs =>
    if c = sep then [] :: splitAtChar sep cs
    else
      match splitAtChar sep cs with
      | [] => [[c]]
      | g :: gs => (c :: g) :: gs

/-- Model of `bufio.Scanner` with `ScanLines`: the sequence of lines of a string.
An empty input yields no lines, and a trailing newline does not yield a final
empty line. -/
def scanLines (s : String) : List String :=
  let parts := splitAtChar '\n' s.toList
  let parts := if parts.getLast? = some [] then parts.dropLast else parts
  parts.map (fun cs => ⟨cs⟩)

/-- Numeric value of a digit list (most significant first). -/
def digitsToNat (cs : List Char) : Nat :=
  cs.foldl (fun n c => n * 10 + (c.toNat - 48)) 0

/-- Parse one dotted-version segment: nonempty, all digits. -/
def parseSeg (cs : List Char) : Option Nat :=
  if cs.isEmpty then none
  else if cs.all Char.isDigit then some (digitsToNat cs)
  else none

/-- Model of hashicorp `go-version` `version.NewVersion` restricted to plain
dotted numeric versions `d(.d)*`: the numeric segments, padded with zeros to at
least three components (as `go-version` does). Returns `none` when the string
is not a dotted numeric version, modelling the parse error. -/
def NewVersion (s : String) : Option (List Nat) :=
  match (splitAtChar '.' s.toList).mapM parseSeg with
  | none => none
  | some segs => some (segs ++ List.replicate (3 - segs.length) 0)

/-- Model of `go-version` version comparison on numeric segment lists: compare
componentwise, padding the shorter list with zeros. `Version.GreaterThan a b`
is `compareSegs a b = .gt`. -/
def compareSegs : List Nat → List Nat → Ordering
  | [], ys => if ys.all (fun y => y = 0) then .eq else .lt
  | x :: xs, [] => if x = 0 then compareSegs xs [] else .gt
  | x :: xs, y :: ys =>
    if x < y then .lt
    else if y < x then .gt
    else compareSegs xs ys

/-- Simulator info (`simulator.InfoModel`): device name, identifier, status. -/
structure SimInfo where
  name : String
  id : String
  status : String
deriving DecidableEq

/-- Lookup in an association list modelling a Go map (keys are unique in any
map produced by the collaborator, so first-match lookup is faithful). -/
def lookupA {α : Type} (m : List (String × α)) (k : String) : Option α :=
  (m.find? (fun p => p.1 = k)).map Prod.snd

/-- The key of an OS-version bucket belongs to the iOS platform family. -/
def iosKey (k : String) : Bool :=
  strHasPre "iOS" k

/-- The suffix of an iOS bucket key: drop the `"iOS"` prefix, trim whitespace
(`strings.TrimPrefix` followed by `strings.TrimSpace` in the source). -/
def iosSuffix (k : String) : String :=
  trimStr ⟨k.toList.drop 3⟩

/-- The loop body of `getLatestIOSVersion`: scan the bucket keys in iteration
order, skip keys without the `"iOS"` prefix, parse each remaining suffix as a
version (any parse failure aborts with an error), and keep the greatest
version seen so far under `compareSegs`. -/
def getLatestLoop : List String → Option (List Nat) → Except String (Option (List Nat))
  | [], acc => .ok acc
  | k :: rest, acc =>
    if iosKey k = false then getLatestLoop rest acc
    else
      match NewVersion (iosSuffix k) with
      | none => .error ("Failed to parse version (" ++ iosSuffix k ++ ")")
      | some v =>
        match acc with
        | none => getLatestLoop rest (some v)
        | some cur => getLatestLoop rest (some (if compareSegs v cur = .gt then v else cur))

/-- Model of `getLatestIOSVersion`: resolve the greatest iOS version among the
bucket keys and reformat it as `"iOS <major>.<minor>"` from the first two
segments. The `keys` list stands for the map's key iteration order. -/
def getLatestIOSVersion (keys : List String) : Except String String :=
  match getLatestLoop keys none with
  | .error e => .error e
  | .ok none => .error "Failed to determin latest iOS simulator version"
  | .ok (some segs) =>
    if segs.length < 2 then .error ("Invalid version created: segments count < 2")
    else .ok ("iOS " ++ toString (segs.getD 0 0) ++ "." ++ toString (segs.getD 1 0))

/-- The OS-version key actually looked up by `getSimulatorInfo`: the literal
spec, or the resolved latest iOS version when the spec is `"latest"`. -/
def resolveOsVersion (m : List (String × List SimInfo)) (osVersion : String) :
    Except String String :=
  if osVersion = "latest" then getLatestIOSVersion (m.map Prod.fst) else .ok osVersion

/-- Model of `getSimulatorInfo`: resolve the OS-version key, look up its bucket,
and return the first entry whose device name equals `deviceName` exactly. The
map parameter models the result of `simulator.GetOsVersionSimulatorInfosMap`. -/
def getSimulatorInfo (m : List (String × List SimInfo)) (osVersion deviceName : String) :
    Except String SimInfo :=
  match resolveOsVersion m osVersion with
  | .error e => .error e
  | .ok osv =>
    match lookupA m osv with
    | none => .error ("No simulators found for os version: " ++ osv)
    | some infos =>
      match infos.find? (fun i => i.name = deviceName) with
      | some info => .ok info
      | none =>
        .error ("No simulators found for os version: (" ++ osv ++ "), device name: (" ++ deviceName ++ ")")

/-- The loop of `parseErrorFromResultLog` over scanned lines: `flag` is
`failureLineFound`, `last` is `lastFailureMessage`. A line equal (after
trimming) to the failure marker sets the flag and skips the reset; a line
beginning with the message marker while the flag is set is recorded,
overwriting the previous record; the flag is cleared after every other line. -/
def parseErrorLines : List String → Bool → String → String
  | [], _, last => last
  | l :: rest, flag, last =>
    let line := trimStr l
    if line = "<failure>" then parseErrorLines rest true last
    else if flag && strHasPre "<message>" line then parseErrorLines rest false line
    else parseErrorLines rest false last

/-- Model of `parseErrorFromResultLog` (the Go function also returns an error
value, but it is always nil, so the embedding returns only the message). -/
def parseErrorFromResultLog (content : String) : String :=
  parseErrorLines (scanLines content) false ""

/-- Decides whether a line list contains an adjacent failure-marker line
followed by a message-marker line (after trimming) -- exactly the situations
in which the scanner loop records a message. -/
def hasPair : List String → Bool
  | a :: b :: rest =>
    (trimStr a = "<failure>" && strHasPre "<message>" (trimStr b)) || hasPair (b :: rest)
  | _ => false

/-- The output type tag for an application bundle (`constants.OutputTypeAPP`). -/
def OutputTypeAPP : String := "app"

/-- One build output: its type tag and its filesystem path. -/
structure Output where
  outputType : String
  pth : String
deriving DecidableEq

/-- The outputs collected for one project (`project.OutputMap` entry). -/
structure ProjectOutput where
  outputs : List Output
deriving DecidableEq

/-- The collected output of one test project: its own output path (the test
dll) and the names of the projects it refers to. -/
structure TestProjectOutput where
  outputPth : String
  referredProjectNames : List String
deriving DecidableEq

/-- Observable effects of the run, in order of occurrence. -/
inductive Event where
  | setSimUdid (id : String)
  | setAppBundlePath (pth : String)
  | runTest (testProjectName projectName dllPth : String)
  | exportEnv (key value : String)
  | exitFatal
deriving DecidableEq

/-- Results of all external collaborators, as consumed by `main`:
configuration validation, the simulator directory, the environment variables
the step itself sets, the nunit console, the builder, the output collectors,
the per-pair test-run outcome and the result-log file content read back after
each run (`none` models a read error). -/
structure MainEnv where
  validateErr : Option String
  simulatorMap : Except String (List (String × List SimInfo))
  simulatorOsVersion : String
  simulatorDevice : String
  setUdidOk : Bool
  nunitConsolePath : Except String String
  builderOk : Bool
  buildErr : Option String
  projectOutputs : Except String (List (String × ProjectOutput))
  testProjectOutputs : Except String (List (String × TestProjectOutput))
  nunitNewOk : Bool
  setAppEnvOk : String → Bool
  runOk : String → String → Bool
  readLog : String → String → Option String

/-- Events of `failf`: export the failed result token (the export itself may
fail, which is only logged) and exit with status 1. -/
def failfEvents : List Event :=
  [.exportEnv "BITRISE_XAMARIN_TEST_RESULT" "failed", .exitFatal]

/-- The inner scan over a referred project's outputs: `appPth` starts empty and
is overwritten by the path of every output whose type is the application
bundle tag, so the last such output wins. -/
def computeAppPth (outputs : List Output) : String :=
  outputs.foldl (fun acc o => if o.outputType = OutputTypeAPP then o.pth else acc) ""

/-- One iteration of the inner loop of `main` over a referred project name:
skip silently when the project has no collected output; abort fatally when no
application bundle path is found or the bundle-path environment write fails;
otherwise run the test, re-read the result log (a read error is only a
warning and leaves the log content empty), and on a failed run export the
captured log when non-empty and abort fatally. Returns the emitted events and
the updated retained result log, or the final events of a fatal abort. -/
def processReference (env : MainEnv) (pom : List (String × ProjectOutput))
    (testProjectName : String) (tpo : TestProjectOutput) (resultLog : String)
    (projectName : String) : Except (List Event) (List Event × String) :=
  match lookupA pom projectName with
  | none => .ok ([], resultLog)
  | some projectOutput =>
    let appPth := computeAppPth projectOutput.outputs
    if appPth = "" then .error failfEvents
    else if env.setAppEnvOk appPth = false then
      .error ([Event.setAppBundlePath appPth] ++ failfEvents)
    else
      let runEvents := [Event.setAppBundlePath appPth,
        Event.runTest testProjectName projectName tpo.outputPth]
      let testLog := (env.readLog testProjectName projectName).getD ""
      if env.runOk testProjectName projectName then .ok (runEvents, testLog)
      else
        .error (runEvents ++
          (if testLog = "" then [] else [Event.exportEnv "BITRISE_XAMARIN_TEST_FULL_RESULTS_TEXT" testLog]) ++
          failfEvents)

/-- The inner loop of `main` over the referred project names of one test
project, threading the retained result log. -/
def processReferences (env : MainEnv) (pom : List (String × ProjectOutput))
    (testProjectName : String) (tpo : TestProjectOutput) :
    List String → String → Except (List Event) (List Event × String)
  | [], resultLog => .ok ([], resultLog)
  | p :: ps, resultLog =>
    match processReference env pom testProjectName tpo resultLog p with
    | .error evs => .error evs
    | .ok (evs, log') =>
      match processReferences env pom testProjectName tpo ps log' with
      | .error evs' => .error (evs ++ evs')
      | .ok (evs', log'') => .ok (evs ++ evs', log'')

/-- The outer loop of `main` over the test projects: a test project with no
referred projects is skipped with a warning. -/
def processTestProjects (env : MainEnv) (pom : List (String × ProjectOutput)) :
    List (String × TestProjectOutput) → String → Except (List Event) (List Event × String)
  | [], resultLog => .ok ([], resultLog)
  | (tname, tpo) :: rest, resultLog =>
    if tpo.referredProjectNames = [] then processTestProjects env pom rest resultLog
    else
      match processReferences env pom tname tpo tpo.referredProjectNames resultLog with
      | .error evs => .error evs
      | .ok (evs, log') =>
        match processTestProjects env pom rest log' with
        | .error evs' => .error (evs ++ evs')
        | .ok (evs', log'') => .ok (evs ++ evs', log'')

/-- The event trace of `main`: every fatal path ends in the events of `failf`;
normal completion of the pairing loop exports the succeeded result token and,
when the retained result log is non-empty, the full-results text. -/
def mainTrace (env : MainEnv) : List Event :=
  match env.validateErr with
  | some _ => failfEvents
  | none =>
  match env.simulatorMap with
  | .error _ => failfEvents
  | .ok simMap =>
  match getSimulatorInfo simMap env.simulatorOsVersion env.simulatorDevice with
  | .error _ => failfEvents
  | .ok simInfo =>
  if env.setUdidOk = false then failfEvents
  else
  match env.nunitConsolePath with
  | .error _ => failfEvents
  | .ok _ =>
  if env.builderOk = false then failfEvents
  else
  match env.buildErr with
  | some _ => failfEvents
  | none =>
  match env.projectOutputs with
  | .error _ => failfEvents
  | .ok pom =>
  match env.testProjectOutputs with
  | .error _ => failfEvents
  | .ok tpom =>
  if env.nunitNewOk = false then failfEvents
  else
    [Event.setSimUdid simInfo.id] ++
    match processTestProjects env pom tpom "" with
    | .error evs => evs
    | .ok (evs, finalLog) =>
      evs ++ [Event.exportEnv "BITRISE_XAMARIN_TEST_RESULT" "succeeded"] ++
        (if finalLog = "" then [] else [Event.exportEnv "BITRISE_XAMARIN_TEST_FULL_RESULTS_TEXT" finalLog])

def envTriv : MainEnv where
  validateErr := none
  simulatorMap := .ok []
  simulatorOsVersion := "iOS 12.0"
  simulatorDevice := "iPhone 8"
  setUdidOk := true
  nunitConsolePath := .ok "/usr/local/bin/nunit3-console.exe"
  builderOk := true
  buildErr := none
  projectOutputs := .ok []
  testProjectOutputs := .ok []
  nunitNewOk := true
  setAppEnvOk := fun _ => true
  runOk := fun _ _ => true
  readLog := fun _ _ => none

/-- Concrete simulator entries and maps used by witnesses. -/
def phone8X : SimInfo := ⟨"iPhone 8", "X", "Shutdown"⟩

/-- A second simulator entry with the same device name. -/
def phone8Y : SimInfo := ⟨"iPhone 8", "Y", "Shutdown"⟩

/-- A one-bucket simulator map. -/
def simMapX : List (String × List SimInfo) := [("iOS 12.1", [phone8X])]

/-- A simulator map whose bucket holds two entries with the same device name. -/
def simMapDup : List (String × List SimInfo) := [("iOS 12.1", [phone8X, phone8Y])]

/-- The three export-related facts that hold of every fatal-abort event list:
it exports the failed result token, the result-token key is only ever exported
with value "failed", and the full-results key is only exported with a
non-empty value. -/
def FatalExports (evs : List Event) : Prop :=
  Event.exportEnv "BITRISE_XAMARIN_TEST_RESULT" "failed" ∈ evs ∧
  (∀ v, Event.exportEnv "BITRISE_XAMARIN_TEST_RESULT" v ∈ evs → v = "failed") ∧
  (∀ v, Event.exportEnv "BITRISE_XAMARIN_TEST_FULL_RESULTS_TEXT" v ∈ evs → v ≠ "")

/-- The export discipline of a whole trace: the result token is exported at
least once, every export of the result-token key carries "succeeded" or
"failed", and every export of the full-results key carries a non-empty
value. -/
def TokenOk (tr : List Event) : Prop :=
  (∃ v, Event.exportEnv "BITRISE_XAMARIN_TEST_RESULT" v ∈ tr) ∧
  (∀ v, Event.exportEnv "BITRISE_XAMARIN_TEST_RESULT" v ∈ tr →
    v = "succeeded" ∨ v = "failed") ∧
  (∀ v, Event.exportEnv "BITRISE_XAMARIN_TEST_FULL_RESULTS_TEXT" v ∈ tr → v ≠ "")

/-- An environment whose single test pair runs successfully and leaves a
non-empty result log. -/
def envFull : MainEnv where
  validateErr := none
  simulatorMap := .ok simMapX
  simulatorOsVersion := "iOS 12.1"
  simulatorDevice := "iPhone 8"
  setUdidOk := true
  nunitConsolePath := .ok "/usr/local/bin/nunit3-console.exe"
  builderOk := true
  buildErr := none
  projectOutputs := .ok [("P", ⟨[⟨"app", "/out/P.app"⟩]⟩)]
  testProjectOutputs := .ok [("T", ⟨"/out/T.dll", ["P"]⟩)]
  nunitNewOk := true
  setAppEnvOk := fun _ => true
  runOk := fun _ _ => true
  readLog := fun _ _ => some "LOG"

/-- The project-output map of the two-reference scenario: only the first
referred project has an application-bundle output. -/
def pomC1 : List (String × ProjectOutput) :=
  [("P1", ⟨[⟨"app", "/out/P1.app"⟩]⟩), ("P2", ⟨[⟨"dll", "/out/P2.dll"⟩]⟩)]

/-- The test-project output of the two-reference scenario. -/
def tpoC1 : TestProjectOutput := ⟨"/out/T.dll", ["P1", "P2"]⟩

/-- An environment with one test project referring to two projects, where only
the first referred project has an application-bundle output, and every test
run succeeds. -/
def envC1 : MainEnv where
  validateErr := none
  simulatorMap := .ok simMapX
  simulatorOsVersion := "iOS 12.1"
  simulatorDevice := "iPhone 8"
  setUdidOk := true
  nunitConsolePath := .ok "/usr/local/bin/nunit3-console.exe"
  builderOk := true
  buildErr := none
  projectOutputs := .ok pomC1
  testProjectOutputs := .ok [("T", tpoC1)]
  nunitNewOk := true
  setAppEnvOk := fun _ => true
  runOk := fun _ _ => true
  readLog := fun _ _ => none

theorem parseErrorLines_records_pair (msg : String) (tail : List String)
    (hm : strHasPre "<message>" (trimStr msg) = true) :
    ∀ (ls : List String) (flag : Bool) (last : String),
      parseErrorLines (ls ++ "<failure>" :: msg :: tail) flag last =
        parseErrorLines tail false (trimStr msg) := by
  intro ls
  induction ls with
  | nil =>
    intro flag last
    have hne : ¬ trimStr msg = "<failure>" := by
      intro h
      rw [h] at hm
      exact absurd hm (by decide)
    simp only [List.nil_append, parseErrorLines]
    rw [if_pos (by decide : trimStr "<failure>" = "<failure>")]
    rw [if_neg hne]
    rw [if_pos (by simp [hm])]
  | cons a ls ih =>
    intro flag last
    simp only [List.cons_append, parseErrorLines]
    split
    · exact ih _ _
    · split
      · exact ih _ _
      · exact ih _ _

theorem hasPair_tail (a : String) (rest : List String)
    (h : hasPair (a :: rest) = false) : hasPair rest = false := by
  cases rest with
  | nil => rfl
  | cons b bs =>
    simp only [hasPair, Bool.or_eq_false_iff] at h
    exact h.2

theorem parseErrorLines_noPair : ∀ (ls : List String) (flag : Bool) (last : String),
    hasPair ls = false →
    (flag = true → ∀ b bs, ls = b :: bs → strHasPre "<message>" (trimStr b) = false) →
    parseErrorLines ls flag last = last := by
  intro ls
  induction ls with
  | nil => intro flag last _ _; rfl
  | cons a rest ih =>
    intro flag last hpair hflag
    simp only [parseErrorLines]
    by_cases hfail : trimStr a = "<failure>"
    · rw [if_pos hfail]
      refine ih true last (hasPair_tail a rest hpair) ?_
      intro _ b bs hrest
      subst hrest
      simp only [hasPair, hfail, Bool.or_eq_false_iff, Bool.and_eq_false_iff] at hpair
      rcases hpair.1 with h | h
      · simp at h
      · exact h
    · rw [if_neg hfail]
      by_cases hmsg : (flag && strHasPre "<message>" (trimStr a)) = true
      · exfalso
        have h1 : flag = true := by
          cases flag
          · simp at hmsg
          · rfl
        have h2 := hflag h1 a rest rfl
        rw [h2] at hmsg
        simp at hmsg
      · rw [if_neg (by simpa using hmsg)]
        refine ih false last (hasPair_tail a rest hpair) ?_
        intro hcontra
        cases hcontra

/-- C3: when the report text contains two adjacent failure-marker/message-line
pairs (with arbitrary content before, between and after, the text after the
last pair containing no further recognized pair), `parseErrorFromResultLog`
returns the (trimmed) message line of the second, last pair: each recognized
pair overwrites the previously recorded message, so the last occurrence in the
document wins. -/
theorem parseError_last_pair_wins (content : String) (l1 l2 l3 : List String)
    (m1 m2 : String)
    (hscan : scanLines content =
      l1 ++ "<failure>" :: m1 :: (l2 ++ "<failure>" :: m2 :: l3))
    (h1 : strHasPre "<message>" (trimStr m1) = true)
    (h2 : strHasPre "<message>" (trimStr m2) = true)
    (h3 : hasPair l3 = false) :
    parseErrorFromResultLog content = trimStr m2 := by
  unfold parseErrorFromResultLog
  rw [hscan]
  have hre : l1 ++ "<failure>" :: m1 :: (l2 ++ "<failure>" :: m2 :: l3) =
      (l1 ++ "<failure>" :: m1 :: l2) ++ "<failure>" :: m2 :: l3 := by simp
  rw [hre]
  rw [parseErrorLines_records_pair m2 l3 h2]
  exact parseErrorLines_noPair l3 false (trimStr m2) h3 (fun hf => absurd hf (by decide))

/-- Witness for C3 at a concrete report text with two adjacent pairs and a
trailing line after the last pair. -/
theorem parseError_last_pair_wins_witness :
    parseErrorFromResultLog
      "<failure>\n<message>one</message>\n<failure>\n<message>two</message>\ntrailing line" =
      "<message>two</message>" :=
  (parseError_last_pair_wins
      "<failure>\n<message>one</message>\n<failure>\n<message>two</message>\ntrailing line"
      [] [] ["trailing line"] "<message>one</message>" "<message>two</message>"
      (by decide) (by decide) (by decide) (by decide)).trans (by decide)

/-- C6: when no trimmed line of the report text equal to the failure marker is
immediately followed by a line beginning with the message marker (in
particular when every message line is separated from the preceding failure
marker by at least one intervening line, and when there is no pair at all),
`parseErrorFromResultLog` returns the empty string. -/
theorem parseError_empty_without_adjacent_pair (content : String)
    (h : hasPair (scanLines content) = false) :
    parseErrorFromResultLog content = "" :=
  parseErrorLines_noPair (scanLines content) false "" h (fun hf => absurd hf (by decide))

/-- Witness for C6: a message line separated from the failure marker by one
intervening line is not recognized. -/
theorem parseError_empty_without_adjacent_pair_witness :
    parseErrorFromResultLog "<failure>\nintervening line\n<message>x</message>" = "" :=
  parseError_empty_without_adjacent_pair
    "<failure>\nintervening line\n<message>x</message>" (by decide)

theorem foldlApp_no_app (l : List Output) (acc : String)
    (h : ∀ o ∈ l, o.outputType ≠ OutputTypeAPP) :
    l.foldl (fun acc o => if o.outputType = OutputTypeAPP then o.pth else acc) acc = acc := by
  induction l generalizing acc with
  | nil => rfl
  | cons a l ih =>
    simp only [List.foldl_cons]
    rw [if_neg (h a (by simp))]
    exact ih acc (fun o ho => h o (by simp [ho]))

/-- C9: when a referred project's output list contains application-bundle
outputs, the bundle path used is the one of the last such output (each match
overwrites the previous candidate), and when that last path is the empty
string the reference is treated as having no bundle and processing aborts
fatally with the events of `failf`. -/
theorem appPth_last_app_output (env : MainEnv) (pom : List (String × ProjectOutput))
    (tname : String) (tpo : TestProjectOutput) (log p : String)
    (po : ProjectOutput) (pre post : List Output) (o : Output)
    (hlk : lookupA pom p = some po)
    (hsplit : po.outputs = pre ++ o :: post)
    (happ : o.outputType = OutputTypeAPP)
    (hpost : ∀ o2 ∈ post, o2.outputType ≠ OutputTypeAPP) :
    computeAppPth po.outputs = o.pth ∧
      (o.pth = "" → processReference env pom tname tpo log p = .error failfEvents) := by
  have hc : computeAppPth po.outputs = o.pth := by
    unfold computeAppPth
    rw [hsplit, List.foldl_append]
    simp only [List.foldl_cons]
    rw [if_pos happ]
    exact foldlApp_no_app post o.pth hpost
  refine ⟨hc, fun hempty => ?_⟩
  unfold processReference
  rw [hlk]
  simp [hc, hempty]

/-- Witness for C9: two app outputs, the last with an empty path. -/
theorem appPth_last_app_output_witness :
    computeAppPth [⟨"app", "/out/a.app"⟩, ⟨"app", ""⟩] = "" ∧
      ("" = "" → processReference envTriv [("P", ⟨[⟨"app", "/out/a.app"⟩, ⟨"app", ""⟩]⟩)]
        "T" ⟨"/out/T.dll", ["P"]⟩ "" "P" = .error failfEvents) :=
  appPth_last_app_output envTriv [("P", ⟨[⟨"app", "/out/a.app"⟩, ⟨"app", ""⟩]⟩)]
    "T" ⟨"/out/T.dll", ["P"]⟩ "" "P" ⟨[⟨"app", "/out/a.app"⟩, ⟨"app", ""⟩]⟩
    [⟨"app", "/out/a.app"⟩] [] ⟨"app", ""⟩ (by decide) rfl (by decide) (by decide)

theorem find?_append_first {α : Type} (p : α → Bool) (pre post : List α) (i : α)
    (hpre : ∀ a ∈ pre, p a = false) (hi : p i = true) :
    (pre ++ i :: post).find? p = some i := by
  induction pre with
  | nil => simp [List.find?, hi]
  | cons a l ih =>
    simp only [List.cons_append, List.find?, hpre a (by simp)]
    exact ih (fun a ha => hpre a (by simp [ha]))

/-- C5: simulator resolution fails with a not-found error whenever the resolved
OS-version key has no bucket in the map, or no entry of the looked-up bucket
has a device name exactly equal to the configured one; and any successful
resolution returns an entry of the bucket whose name is exactly the configured
device name, so no partial or fuzzy matching is ever performed. -/
theorem getSimulatorInfo_not_found (m : List (String × List SimInfo))
    (osVersion deviceName osv : String)
    (hres : resolveOsVersion m osVersion = .ok osv) :
    (lookupA m osv = none → ∃ e, getSimulatorInfo m osVersion deviceName = .error e) ∧
    (∀ infos, lookupA m osv = some infos →
      ((∀ i ∈ infos, i.name ≠ deviceName) →
        ∃ e, getSimulatorInfo m osVersion deviceName = .error e) ∧
      (∀ info, getSimulatorInfo m osVersion deviceName = .ok info →
        info ∈ infos ∧ info.name = deviceName)) := by
  constructor
  · intro hnone
    unfold getSimulatorInfo
    simp only [hres, hnone]
    exact ⟨_, rfl⟩
  · intro infos hsome
    constructor
    · intro hnoname
      unfold getSimulatorInfo
      simp only [hres, hsome]
      have hfind : infos.find? (fun i => i.name = deviceName) = none := by
        rw [List.find?_eq_none]
        intro i hi
        simp [hnoname i hi]
      simp only [hfind]
      exact ⟨_, rfl⟩
    · intro info hok
      unfold getSimulatorInfo at hok
      simp only [hres, hsome] at hok
      cases hfind : infos.find? (fun i => i.name = deviceName) with
      | none => simp only [hfind] at hok; cases hok
      | some j =>
        simp only [hfind] at hok
        injection hok with hj
        subst hj
        have hmem : j ∈ infos := List.mem_of_find?_eq_some hfind
        have hp := List.find?_some hfind
        exact ⟨hmem, by simpa using hp⟩

/-- Witness for C5 at a concrete map: a missing bucket and a bucket without an
exact device-name match both fail. -/
theorem getSimulatorInfo_not_found_witness :
    (lookupA simMapX "iOS 9.0" = none →
      ∃ e, getSimulatorInfo simMapX "iOS 9.0" "iPhone 8" = .error e) ∧
    (∀ infos, lookupA simMapX "iOS 9.0" = some infos →
      ((∀ i ∈ infos, i.name ≠ "iPhone 8") →
        ∃ e, getSimulatorInfo simMapX "iOS 9.0" "iPhone 8" = .error e) ∧
      (∀ info, getSimulatorInfo simMapX "iOS 9.0" "iPhone 8" = .ok info →
        info ∈ infos ∧ info.name = "iPhone 8")) :=
  getSimulatorInfo_not_found simMapX "iOS 9.0" "iPhone 8" "iOS 9.0" rfl

/-- C10: when the resolved bucket contains more than one entry whose device
name equals the configured one, resolution deterministically returns the first
such entry in the bucket order. -/
theorem getSimulatorInfo_picks_first (m : List (String × List SimInfo))
    (osVersion deviceName osv : String) (pre post : List SimInfo) (i : SimInfo)
    (hres : resolveOsVersion m osVersion = .ok osv)
    (hlk : lookupA m osv = some (pre ++ i :: post))
    (hpre : ∀ j ∈ pre, j.name ≠ deviceName)
    (hname : i.name = deviceName)
    (hdup : ∃ j ∈ post, j.name = deviceName) :
    getSimulatorInfo m osVersion deviceName = .ok i := by
  unfold getSimulatorInfo
  simp only [hres, hlk]
  have hfind : (pre ++ i :: post).find? (fun j => j.name = deviceName) = some i :=
    find?_append_first _ pre post i (fun j hj => by simp [hpre j hj]) (by simp [hname])
  simp only [hfind]

/-- Witness for C10: a bucket holding two entries named "iPhone 8" resolves to
the first of them. -/
theorem getSimulatorInfo_picks_first_witness :
    getSimulatorInfo simMapDup "iOS 12.1" "iPhone 8" = .ok phone8X :=
  getSimulatorInfo_picks_first simMapDup "iOS 12.1" "iPhone 8" "iOS 12.1"
    [] [phone8Y] phone8X rfl rfl (by decide) (by decide)
    ⟨phone8Y, by decide, by decide⟩

theorem compareSegs_nil_ne_gt (b : List Nat) : compareSegs [] b ≠ .gt := by
  unfold compareSegs
  split <;> simp

theorem compareSegs_self (a : List Nat) : compareSegs a a = .eq := by
  induction a with
  | nil => rfl
  | cons x xs ih =>
    simp only [compareSegs]
    rw [if_neg (lt_irrefl x), if_neg (lt_irrefl x)]
    exact ih

theorem compareSegs_gt_trans : ∀ (a b c : List Nat),
    compareSegs a b = .gt → compareSegs b c = .gt → compareSegs a c = .gt := by
  intro a
  induction a with
  | nil => intro b c h1 _; exact absurd h1 (compareSegs_nil_ne_gt b)
  | cons x xs ih =>
    intro b c h1 h2
    cases b with
    | nil => exact absurd h2 (compareSegs_nil_ne_gt c)
    | cons y ys =>
      cases c with
      | nil =>
        simp only [compareSegs] at h1 h2 ⊢
        by_cases hxy : x < y
        · rw [if_pos hxy] at h1; cases h1
        · rw [if_neg hxy] at h1
          by_cases hyx : y < x
          · rw [if_neg (by omega : ¬ x = 0)]
          · rw [if_neg hyx] at h1
            by_cases hy : y = 0
            · rw [if_pos hy] at h2
              rw [if_pos (by omega : x = 0)]
              exact ih ys [] h1 h2
            · rw [if_neg (by omega : ¬ x = 0)]
      | cons z zs =>
        simp only [compareSegs] at h1 h2 ⊢
        by_cases hxy : x < y
        · rw [if_pos hxy] at h1; cases h1
        · rw [if_neg hxy] at h1
          by_cases hyz : y < z
          · rw [if_pos hyz] at h2; cases h2
          · rw [if_neg hyz] at h2
            by_cases hyx : y < x
            · rw [if_neg (by omega : ¬ x < z), if_pos (by omega : z < x)]
            · rw [if_neg hyx] at h1
              by_cases hzy : z < y
              · rw [if_neg (by omega : ¬ x < z), if_pos (by omega : z < x)]
              · rw [if_neg hzy] at h2
                rw [if_neg (by omega : ¬ x < z), if_neg (by omega : ¬ z < x)]
                exact ih ys zs h1 h2

theorem compareSegs_le_trans : ∀ (a b c : List Nat),
    compareSegs a b ≠ .gt → compareSegs b c ≠ .gt → compareSegs a c ≠ .gt := by
  intro a
  induction a with
  | nil => intro b c _ _; exact compareSegs_nil_ne_gt c
  | cons x xs ih =>
    intro b c h1 h2
    cases b with
    | nil =>
      have hx : x = 0 ∧ compareSegs xs [] ≠ .gt := by
        simp only [compareSegs] at h1
        by_cases hx0 : x = 0
        · rw [if_pos hx0] at h1; exact ⟨hx0, h1⟩
        · rw [if_neg hx0] at h1; exact absurd rfl h1
      cases c with
      | nil =>
        simp only [compareSegs]
        rw [if_pos hx.1]
        exact hx.2
      | cons z zs =>
        simp only [compareSegs]
        by_cases hxz : x < z
        · rw [if_pos hxz]; simp
        · rw [if_neg hxz, if_neg (by omega : ¬ z < x)]
          exact ih [] zs hx.2 (compareSegs_nil_ne_gt zs)
    | cons y ys =>
      cases c with
      | nil =>
        have hy : y = 0 ∧ compareSegs ys [] ≠ .gt := by
          simp only [compareSegs] at h2
          by_cases hy0 : y = 0
          · rw [if_pos hy0] at h2; exact ⟨hy0, h2⟩
          · rw [if_neg hy0] at h2; exact absurd rfl h2
        simp only [compareSegs] at h1
        rw [if_neg (by omega : ¬ x < y)] at h1
        by_cases hyx : y < x
        · rw [if_pos hyx] at h1; exact absurd rfl h1
        · rw [if_neg hyx] at h1
          simp only [compareSegs]
          rw [if_pos (by omega : x = 0)]
          exact ih ys [] h1 hy.2
      | cons z zs =>
        simp only [compareSegs] at h1 h2 ⊢
        by_cases hzy : z < y
        · rw [if_neg (by omega : ¬ y < z), if_pos hzy] at h2
          exact absurd rfl h2
        · by_cases hxy : x < y
          · rw [if_pos (by omega : x < z)]; simp
          · by_cases hyx : y < x
            · rw [if_neg hxy, if_pos hyx] at h1; exact absurd rfl h1
            · rw [if_neg hxy, if_neg hyx] at h1
              by_cases hyz : y < z
              · rw [if_pos (by omega : x < z)]; simp
              · rw [if_neg hyz, if_neg hzy] at h2
                rw [if_neg (by omega : ¬ x < z), if_neg (by omega : ¬ z < x)]
                exact ih ys zs h1 h2

theorem getLatestLoop_max_some : ∀ (keys : List String) (a : List Nat),
    (∀ k ∈ keys, iosKey k = true → (NewVersion (iosSuffix k)).isSome = true) →
    ∃ m, getLatestLoop keys (some a) = .ok (some m) ∧
      (m = a ∨ ∃ k ∈ keys, iosKey k = true ∧ NewVersion (iosSuffix k) = some m) ∧
      compareSegs a m ≠ .gt ∧
      (∀ k ∈ keys, iosKey k = true → ∀ v, NewVersion (iosSuffix k) = some v →
        compareSegs v m ≠ .gt) := by
  intro keys
  induction keys with
  | nil =>
    intro a _
    refine ⟨a, rfl, Or.inl rfl, ?_, ?_⟩
    · rw [compareSegs_self]; simp
    · intro k hk; cases hk
  | cons k rest ih =>
    intro a hp
    by_cases hkey : iosKey k = false
    · simp only [getLatestLoop, hkey, if_pos rfl]
      obtain ⟨m, hloop, horig, hle, hmax⟩ :=
        ih a (fun k2 hk2 h2 => hp k2 (by simp [hk2]) h2)
      refine ⟨m, hloop, ?_, hle, ?_⟩
      · rcases horig with h | ⟨k2, hk2, h2⟩
        · exact Or.inl h
        · exact Or.inr ⟨k2, List.mem_cons_of_mem k hk2, h2⟩
      · intro k2 hk2 hkey2 v hv
        rcases List.mem_cons.mp hk2 with h | h
        · subst h; rw [hkey2] at hkey; cases hkey
        · exact hmax k2 h hkey2 v hv
    · have hkey2 : iosKey k = true := by
        cases h : iosKey k
        · exact absurd h hkey
        · rfl
      have hsome := hp k (by simp) hkey2
      cases hv : NewVersion (iosSuffix k) with
      | none => rw [hv] at hsome; cases hsome
      | some v =>
        have hstep : getLatestLoop (k :: rest) (some a) =
            getLatestLoop rest (some (if compareSegs v a = .gt then v else a)) := by
          simp [getLatestLoop, hkey2, hv]
        obtain ⟨m, hloop, horig, hle, hmax⟩ :=
          ih (if compareSegs v a = .gt then v else a)
            (fun k2 hk2 h2 => hp k2 (by simp [hk2]) h2)
        refine ⟨m, hstep.trans hloop, ?_, ?_, ?_⟩
        · rcases horig with h | ⟨k2, hk2, h2⟩
          · by_cases hga : compareSegs v a = .gt
            · rw [if_pos hga] at h
              exact Or.inr ⟨k, List.mem_cons_self k rest, hkey2, by rw [hv, h]⟩
            · rw [if_neg hga] at h
              exact Or.inl h
          · exact Or.inr ⟨k2, List.mem_cons_of_mem k hk2, h2⟩
        · by_cases hga : compareSegs v a = .gt
          · rw [if_pos hga] at hle
            intro hgt
            exact hle (compareSegs_gt_trans v a m hga hgt)
          · rw [if_neg hga] at hle
            exact hle
        · intro k2 hk2 hkey3 v2 hv2
          rcases List.mem_cons.mp hk2 with h | h
          · subst h
            rw [hv] at hv2
            injection hv2 with hv2
            subst hv2
            by_cases hga : compareSegs v a = .gt
            · rw [if_pos hga] at hle
              exact hle
            · rw [if_neg hga] at hle
              exact compareSegs_le_trans v a m hga hle
          · exact hmax k2 h hkey3 v2 hv2

theorem getLatestLoop_max_none : ∀ (keys : List String),
    (∃ k ∈ keys, iosKey k = true) →
    (∀ k ∈ keys, iosKey k = true → (NewVersion (iosSuffix k)).isSome = true) →
    ∃ m, getLatestLoop keys none = .ok (some m) ∧
      (∃ k ∈ keys, iosKey k = true ∧ NewVersion (iosSuffix k) = some m) ∧
      (∀ k ∈ keys, iosKey k = true → ∀ v, NewVersion (iosSuffix k) = some v →
        compareSegs v m ≠ .gt) := by
  intro keys
  induction keys with
  | nil => intro hne _; obtain ⟨k, hk, _⟩ := hne; cases hk
  | cons k rest ih =>
    intro hne hp
    by_cases hkey : iosKey k = false
    · simp only [getLatestLoop, hkey, if_pos rfl]
      have hne2 : ∃ k2 ∈ rest, iosKey k2 = true := by
        obtain ⟨k2, hk2, hkey2⟩ := hne
        rcases List.mem_cons.mp hk2 with h | h
        · subst h; rw [hkey2] at hkey; cases hkey
        · exact ⟨k2, h, hkey2⟩
      obtain ⟨m, hloop, hsrc, hmax⟩ :=
        ih hne2 (fun k2 hk2 h2 => hp k2 (by simp [hk2]) h2)
      refine ⟨m, hloop, ?_, ?_⟩
      · obtain ⟨k2, hk2, h2⟩ := hsrc
        exact ⟨k2, List.mem_cons_of_mem k hk2, h2⟩
      · intro k2 hk2 hkey2 v hv
        rcases List.mem_cons.mp hk2 with h | h
        · subst h; rw [hkey2] at hkey; cases hkey
        · exact hmax k2 h hkey2 v hv
    · have hkey2 : iosKey k = true := by
        cases h : iosKey k
        · exact absurd h hkey
        · rfl
      have hsome := hp k (by simp) hkey2
      cases hv : NewVersion (iosSuffix k) with
      | none => rw [hv] at hsome; cases hsome
      | some v =>
        have hstep : getLatestLoop (k :: rest) none = getLatestLoop rest (some v) := by
          simp [getLatestLoop, hkey2, hv]
        obtain ⟨m, hloop, horig, hle, hmax⟩ :=
          getLatestLoop_max_some rest v (fun k2 hk2 h2 => hp k2 (by simp [hk2]) h2)
        refine ⟨m, hstep.trans hloop, ?_, ?_⟩
        · rcases horig with h | ⟨k2, hk2, h2⟩
          · exact ⟨k, List.mem_cons_self k rest, hkey2, by rw [hv, h]⟩
          · exact ⟨k2, List.mem_cons_of_mem k hk2, h2⟩
        · intro k2 hk2 hkey3 v2 hv2
          rcases List.mem_cons.mp hk2 with h | h
          · subst h
            rw [hv] at hv2
            injection hv2 with hv2
            subst hv2
            exact hle
          · exact hmax k2 h hkey3 v2 hv2

theorem NewVersion_two_le_length (s : String) (v : List Nat)
    (h : NewVersion s = some v) : 2 ≤ v.length := by
  unfold NewVersion at h
  cases hm : (splitAtChar '.' s.toList).mapM parseSeg with
  | none => rw [hm] at h; cases h
  | some segs =>
    rw [hm] at h
    injection h with h
    subst h
    rw [List.length_append, List.length_replicate]
    omega

/-- C2: for a non-empty family of bucket keys with the iOS prefix whose
suffixes all parse as dotted versions, resolving `latest` selects a key whose
parsed version is greatest under multi-component numeric comparison and
returns it reformatted from its first two numeric components as
`"iOS <major>.<minor>"`. -/
theorem getLatestIOSVersion_selects_max (keys : List String)
    (hne : ∃ k ∈ keys, iosKey k = true)
    (hp : ∀ k ∈ keys, iosKey k = true → (NewVersion (iosSuffix k)).isSome = true) :
    ∃ k ∈ keys, iosKey k = true ∧
      ∃ v, NewVersion (iosSuffix k) = some v ∧
        (∀ k2 ∈ keys, iosKey k2 = true →
          ∀ v2, NewVersion (iosSuffix k2) = some v2 → compareSegs v2 v ≠ .gt) ∧
        getLatestIOSVersion keys =
          .ok ("iOS " ++ toString (v.getD 0 0) ++ "." ++ toString (v.getD 1 0)) := by
  obtain ⟨m, hloop, ⟨k, hk, hkey, hv⟩, hmax⟩ := getLatestLoop_max_none keys hne hp
  refine ⟨k, hk, hkey, m, hv, hmax, ?_⟩
  unfold getLatestIOSVersion
  simp only [hloop]
  rw [if_neg (by have := NewVersion_two_le_length _ _ hv; omega)]

/-- Witness for C2: the numerically greatest version 12.1 wins over 9.3 even
though lexicographic string order would prefer "9.3". -/
theorem getLatestIOSVersion_selects_max_witness :
    ∃ k ∈ ["iOS 9.3", "iOS 12.1"], iosKey k = true ∧
      ∃ v, NewVersion (iosSuffix k) = some v ∧
        (∀ k2 ∈ ["iOS 9.3", "iOS 12.1"], iosKey k2 = true →
          ∀ v2, NewVersion (iosSuffix k2) = some v2 → compareSegs v2 v ≠ .gt) ∧
        getLatestIOSVersion ["iOS 9.3", "iOS 12.1"] =
          .ok ("iOS " ++ toString (v.getD 0 0) ++ "." ++ toString (v.getD 1 0)) :=
  getLatestIOSVersion_selects_max ["iOS 9.3", "iOS 12.1"]
    ⟨"iOS 9.3", by decide, by decide⟩ (by decide)

theorem getLatestLoop_err : ∀ (keys : List String) (acc : Option (List Nat)),
    (∃ k ∈ keys, iosKey k = true ∧ NewVersion (iosSuffix k) = none) →
    ∃ e, getLatestLoop keys acc = .error e := by
  intro keys
  induction keys with
  | nil => intro acc hbad; obtain ⟨k, hk, _⟩ := hbad; cases hk
  | cons k rest ih =>
    intro acc hbad
    by_cases hkey : iosKey k = false
    · simp only [getLatestLoop, hkey, if_pos rfl]
      refine ih acc ?_
      obtain ⟨k2, hk2, hkey2, hnone⟩ := hbad
      rcases List.mem_cons.mp hk2 with h | h
      · subst h; rw [hkey2] at hkey; cases hkey
      · exact ⟨k2, h, hkey2, hnone⟩
    · have hkey2 : iosKey k = true := by
        cases h : iosKey k
        · exact absurd h hkey
        · rfl
      cases hv : NewVersion (iosSuffix k) with
      | none =>
        refine ⟨"Failed to parse version (" ++ iosSuffix k ++ ")", ?_⟩
        simp [getLatestLoop, hkey2, hv]
      | some v =>
        have hbad2 : ∃ k2 ∈ rest, iosKey k2 = true ∧ NewVersion (iosSuffix k2) = none := by
          obtain ⟨k2, hk2, hkey3, hnone⟩ := hbad
          rcases List.mem_cons.mp hk2 with h | h
          · subst h; rw [hv] at hnone; cases hnone
          · exact ⟨k2, h, hkey3, hnone⟩
        cases acc with
        | none =>
          simp only [getLatestLoop, hkey2, hv]
          exact ih (some v) hbad2
        | some cur =>
          simp only [getLatestLoop, hkey2, hv]
          exact ih (some (if compareSegs v cur = .gt then v else cur)) hbad2

theorem getLatestLoop_filter : ∀ (keys : List String) (acc : Option (List Nat)),
    getLatestLoop keys acc = getLatestLoop (keys.filter iosKey) acc := by
  intro keys
  induction keys with
  | nil => intro acc; rfl
  | cons k rest ih =>
    intro acc
    by_cases hkey : iosKey k = false
    · rw [List.filter_cons_of_neg (by simp [hkey])]
      simp only [getLatestLoop, hkey, if_pos rfl]
      exact ih acc
    · have hkey2 : iosKey k = true := by
        cases h : iosKey k
        · exact absurd h hkey
        · rfl
      rw [List.filter_cons_of_pos hkey2]
      simp only [getLatestLoop, hkey2]
      cases hv : NewVersion (iosSuffix k) with
      | none => simp
      | some v =>
        cases acc with
        | none => exact ih (some v)
        | some cur => exact ih (some (if compareSegs v cur = .gt then v else cur))

/-- C7: during latest-version resolution, any key with the iOS prefix whose
suffix fails to parse as a dotted version makes resolution fail with an error
(never silently skipped), while keys without the prefix are skipped without
effect: the resolution only depends on the iOS-prefixed keys. -/
theorem getLatestIOSVersion_parse_failure (keys : List String) :
    ((∃ k ∈ keys, iosKey k = true ∧ NewVersion (iosSuffix k) = none) →
      ∃ e, getLatestIOSVersion keys = .error e) ∧
    getLatestIOSVersion keys = getLatestIOSVersion (keys.filter iosKey) := by
  constructor
  · intro hbad
    obtain ⟨e, hloop⟩ := getLatestLoop_err keys none hbad
    refine ⟨e, ?_⟩
    unfold getLatestIOSVersion
    simp [hloop]
  · unfold getLatestIOSVersion
    rw [getLatestLoop_filter keys none]

/-- Witness for C7: an unparsable iOS-prefixed key fails resolution, and a
non-iOS key is dropped by the filter without changing the outcome. -/
theorem getLatestIOSVersion_parse_failure_witness :
    ((∃ k ∈ ["iOS beta", "tvOS 12.0"], iosKey k = true ∧ NewVersion (iosSuffix k) = none) →
      ∃ e, getLatestIOSVersion ["iOS beta", "tvOS 12.0"] = .error e) ∧
    getLatestIOSVersion ["iOS beta", "tvOS 12.0"] =
      getLatestIOSVersion (["iOS beta", "tvOS 12.0"].filter iosKey) :=
  getLatestIOSVersion_parse_failure ["iOS beta", "tvOS 12.0"]

theorem processReference_ok_events (env : MainEnv) (pom : List (String × ProjectOutput))
    (tname : String) (tpo : TestProjectOutput) (log p : String)
    (evs : List Event) (log2 : String)
    (h : processReference env pom tname tpo log p = .ok (evs, log2)) :
    ∀ k v, Event.exportEnv k v ∉ evs := by
  intro k v hmem
  unfold processReference at h
  cases hlk : lookupA pom p with
  | none =>
    simp only [hlk] at h
    injection h with h
    injection h with h1 h2
    rw [← h1] at hmem
    cases hmem
  | some po =>
    simp only [hlk] at h
    split at h
    · exact Except.noConfusion h
    · split at h
      · exact Except.noConfusion h
      · split at h
        · injection h with h
          injection h with h1 h2
          rw [← h1] at hmem
          simp at hmem
        · exact Except.noConfusion h

theorem failfEvents_fatalExports : FatalExports failfEvents := by
  refine ⟨by simp [failfEvents], ?_, ?_⟩
  · intro v hv
    simp [failfEvents] at hv
    exact hv
  · intro v hv
    simp [failfEvents] at hv

theorem processReference_error_events (env : MainEnv) (pom : List (String × ProjectOutput))
    (tname : String) (tpo : TestProjectOutput) (log p : String) (evs : List Event)
    (h : processReference env pom tname tpo log p = .error evs) :
    FatalExports evs := by
  unfold processReference at h
  cases hlk : lookupA pom p with
  | none => simp only [hlk] at h; exact Except.noConfusion h
  | some po =>
    simp only [hlk] at h
    split at h
    · injection h with h
      rw [← h]
      exact failfEvents_fatalExports
    · split at h
      · injection h with h
        rw [← h]
        refine ⟨by simp [failfEvents], ?_, ?_⟩
        · intro v hv
          simp [failfEvents] at hv
          exact hv
        · intro v hv
          simp [failfEvents] at hv
      · split at h
        · exact Except.noConfusion h
        · injection h with h
          rw [← h]
          by_cases hlog : (env.readLog tname p).getD "" = ""
          · rw [if_pos hlog]
            refine ⟨by simp [failfEvents], ?_, ?_⟩
            · intro v hv
              simp [failfEvents] at hv
              exact hv
            · intro v hv
              simp [failfEvents] at hv
          · rw [if_neg hlog]
            refine ⟨by simp [failfEvents], ?_, ?_⟩
            · intro v hv
              simp [failfEvents] at hv
              exact hv
            · intro v hv
              simp [failfEvents] at hv
              rw [hv]
              exact hlog

theorem fatalExports_append (evs1 evs2 : List Event)
    (h1 : ∀ k v, Event.exportEnv k v ∉ evs1) (h2 : FatalExports evs2) :
    FatalExports (evs1 ++ evs2) := by
  obtain ⟨hmem, hres, hfull⟩ := h2
  refine ⟨List.mem_append_right _ hmem, ?_, ?_⟩
  · intro v hv
    rcases List.mem_append.mp hv with hm | hm
    · exact absurd hm (h1 _ _)
    · exact hres v hm
  · intro v hv
    rcases List.mem_append.mp hv with hm | hm
    · exact absurd hm (h1 _ _)
    · exact hfull v hm

theorem processReferences_ok_events (env : MainEnv) (pom : List (String × ProjectOutput))
    (tname : String) (tpo : TestProjectOutput) :
    ∀ (ps : List String) (log : String) (evs : List Event) (log2 : String),
    processReferences env pom tname tpo ps log = .ok (evs, log2) →
    ∀ k v, Event.exportEnv k v ∉ evs := by
  intro ps
  induction ps with
  | nil =>
    intro log evs log2 h k v hmem
    unfold processReferences at h
    injection h with h
    injection h with h1 h2
    rw [← h1] at hmem
    cases hmem
  | cons p ps ih =>
    intro log evs log2 h k v hmem
    unfold processReferences at h
    cases h1 : processReference env pom tname tpo log p with
    | error e =>
      simp only [h1] at h
      exact Except.noConfusion h
    | ok pr =>
      obtain ⟨evs1, log1⟩ := pr
      simp only [h1] at h
      cases h2 : processReferences env pom tname tpo ps log1 with
      | error e2 =>
        simp only [h2] at h
        exact Except.noConfusion h
      | ok pr2 =>
        obtain ⟨evs2, log3⟩ := pr2
        simp only [h2] at h
        injection h with h
        injection h with ha hb
        rw [← ha] at hmem
        rcases List.mem_append.mp hmem with hm | hm
        · exact processReference_ok_events env pom tname tpo log p evs1 log1 h1 k v hm
        · exact ih log1 evs2 log3 h2 k v hm

theorem processReferences_error_events (env : MainEnv) (pom : List (String × ProjectOutput))
    (tname : String) (tpo : TestProjectOutput) :
    ∀ (ps : List String) (log : String) (evs : List Event),
    processReferences env pom tname tpo ps log = .error evs →
    FatalExports evs := by
  intro ps
  induction ps with
  | nil =>
    intro log evs h
    unfold processReferences at h
    exact Except.noConfusion h
  | cons p ps ih =>
    intro log evs h
    unfold processReferences at h
    cases h1 : processReference env pom tname tpo log p with
    | error e =>
      simp only [h1] at h
      injection h with h
      rw [← h]
      exact processReference_error_events env pom tname tpo log p e h1
    | ok pr =>
      obtain ⟨evs1, log1⟩ := pr
      simp only [h1] at h
      cases h2 : processReferences env pom tname tpo ps log1 with
      | error e2 =>
        simp only [h2] at h
        injection h with h
        rw [← h]
        exact fatalExports_append evs1 e2
          (processReference_ok_events env pom tname tpo log p evs1 log1 h1)
          (ih log1 e2 h2)
      | ok pr2 =>
        obtain ⟨evs2, log3⟩ := pr2
        simp only [h2] at h
        exact Except.noConfusion h

theorem processTestProjects_ok_events (env : MainEnv) (pom : List (String × ProjectOutput)) :
    ∀ (tps : List (String × TestProjectOutput)) (log : String) (evs : List Event) (log2 : String),
    processTestProjects env pom tps log = .ok (evs, log2) →
    ∀ k v, Event.exportEnv k v ∉ evs := by
  intro tps
  induction tps with
  | nil =>
    intro log evs log2 h k v hmem
    unfold processTestProjects at h
    injection h with h
    injection h with h1 h2
    rw [← h1] at hmem
    cases hmem
  | cons tp tps ih =>
    intro log evs log2 h k v hmem
    obtain ⟨tname, tpo⟩ := tp
    unfold processTestProjects at h
    by_cases hrefs : tpo.referredProjectNames = []
    · rw [if_pos hrefs] at h
      exact ih log evs log2 h k v hmem
    · rw [if_neg hrefs] at h
      cases h1 : processReferences env pom tname tpo tpo.referredProjectNames log with
      | error e =>
        simp only [h1] at h
        exact Except.noConfusion h
      | ok pr =>
        obtain ⟨evs1, log1⟩ := pr
        simp only [h1] at h
        cases h2 : processTestProjects env pom tps log1 with
        | error e2 =>
          simp only [h2] at h
          exact Except.noConfusion h
        | ok pr2 =>
          obtain ⟨evs2, log3⟩ := pr2
          simp only [h2] at h
          injection h with h
          injection h with ha hb
          rw [← ha] at hmem
          rcases List.mem_append.mp hmem with hm | hm
          · exact processReferences_ok_events env pom tname tpo
              tpo.referredProjectNames log evs1 log1 h1 k v hm
          · exact ih log1 evs2 log3 h2 k v hm

theorem processTestProjects_error_events (env : MainEnv) (pom : List (String × ProjectOutput)) :
    ∀ (tps : List (String × TestProjectOutput)) (log : String) (evs : List Event),
    processTestProjects env pom tps log = .error evs →
    FatalExports evs := by
  intro tps
  induction tps with
  | nil =>
    intro log evs h
    unfold processTestProjects at h
    exact Except.noConfusion h
  | cons tp tps ih =>
    intro log evs h
    obtain ⟨tname, tpo⟩ := tp
    unfold processTestProjects at h
    by_cases hrefs : tpo.referredProjectNames = []
    · rw [if_pos hrefs] at h
      exact ih log evs h
    · rw [if_neg hrefs] at h
      cases h1 : processReferences env pom tname tpo tpo.referredProjectNames log with
      | error e =>
        simp only [h1] at h
        injection h with h
        rw [← h]
        exact processReferences_error_events env pom tname tpo
          tpo.referredProjectNames log e h1
      | ok pr =>
        obtain ⟨evs1, log1⟩ := pr
        simp only [h1] at h
        cases h2 : processTestProjects env pom tps log1 with
        | error e2 =>
          simp only [h2] at h
          injection h with h
          rw [← h]
          exact fatalExports_append evs1 e2
            (processReferences_ok_events env pom tname tpo
              tpo.referredProjectNames log evs1 log1 h1)
            (ih log1 e2 h2)
        | ok pr2 =>
          obtain ⟨evs2, log3⟩ := pr2
          simp only [h2] at h
          exact Except.noConfusion h

theorem tokenOk_of_fatal (evs : List Event) (h : FatalExports evs) : TokenOk evs :=
  ⟨⟨"failed", h.1⟩, fun v hv => Or.inr (h.2.1 v hv), h.2.2⟩

theorem tokenOk_prepend (pref tr : List Event)
    (hpref : ∀ k v, Event.exportEnv k v ∉ pref) (h : TokenOk tr) :
    TokenOk (pref ++ tr) := by
  obtain ⟨⟨v0, hv0⟩, hres, hfull⟩ := h
  refine ⟨⟨v0, List.mem_append_right _ hv0⟩, ?_, ?_⟩
  · intro v hv
    rcases List.mem_append.mp hv with hm | hm
    · exact absurd hm (hpref _ _)
    · exact hres v hm
  · intro v hv
    rcases List.mem_append.mp hv with hm | hm
    · exact absurd hm (hpref _ _)
    · exact hfull v hm

theorem tokenOk_failf : TokenOk failfEvents :=
  tokenOk_of_fatal failfEvents failfEvents_fatalExports

theorem tokenOk_success_tail (finalLog : String) :
    TokenOk ([Event.exportEnv "BITRISE_XAMARIN_TEST_RESULT" "succeeded"] ++
      (if finalLog = "" then []
       else [Event.exportEnv "BITRISE_XAMARIN_TEST_FULL_RESULTS_TEXT" finalLog])) := by
  by_cases h : finalLog = ""
  · rw [if_pos h]
    refine ⟨⟨"succeeded", by simp⟩, ?_, ?_⟩
    · intro v hv
      simp at hv
      exact Or.inl hv
    · intro v hv
      simp at hv
  · rw [if_neg h]
    refine ⟨⟨"succeeded", by simp⟩, ?_, ?_⟩
    · intro v hv
      simp at hv
      exact Or.inl hv
    · intro v hv
      simp at hv
      rw [hv]
      exact h

theorem mainTrace_tokenOk (env : MainEnv) : TokenOk (mainTrace env) := by
  unfold mainTrace
  split
  · exact tokenOk_failf
  split
  · exact tokenOk_failf
  split
  · exact tokenOk_failf
  split
  · exact tokenOk_failf
  split
  · exact tokenOk_failf
  split
  · exact tokenOk_failf
  split
  · exact tokenOk_failf
  split
  · exact tokenOk_failf
  split
  · exact tokenOk_failf
  split
  · exact tokenOk_failf
  split
  · rename_i evs heq
    exact tokenOk_prepend _ evs (by simp)
      (tokenOk_of_fatal evs (processTestProjects_error_events env _ _ "" evs heq))
  · rename_i evs finalLog heq
    have hnoexp := processTestProjects_ok_events env _ _ "" evs finalLog heq
    rw [List.append_assoc]
    exact tokenOk_prepend _ _ (by simp)
      (tokenOk_prepend evs _ hnoexp (tokenOk_success_tail finalLog))

/-- C4: on every terminal path of the program, both normal completion and
every fatal-error path, the overall result token is exported, and only ever
with one of the two values "succeeded" or "failed". -/
theorem result_token_always_valid (env : MainEnv) :
    (∃ v, Event.exportEnv "BITRISE_XAMARIN_TEST_RESULT" v ∈ mainTrace env) ∧
    (∀ v, Event.exportEnv "BITRISE_XAMARIN_TEST_RESULT" v ∈ mainTrace env →
      v = "succeeded" ∨ v = "failed") :=
  ⟨(mainTrace_tokenOk env).1, (mainTrace_tokenOk env).2.1⟩

/-- Witness for C4 at a concrete environment. -/
theorem result_token_always_valid_witness :
    (∃ v, Event.exportEnv "BITRISE_XAMARIN_TEST_RESULT" v ∈ mainTrace envTriv) ∧
    (∀ v, Event.exportEnv "BITRISE_XAMARIN_TEST_RESULT" v ∈ mainTrace envTriv →
      v = "succeeded" ∨ v = "failed") :=
  result_token_always_valid envTriv

/-- C8: the full-results-text key is only ever exported with a non-empty
value; when the retained result log is empty the export is skipped, on the
first-failure path and on the normal end-of-run path alike. -/
theorem full_results_only_nonempty (env : MainEnv) :
    ∀ v, Event.exportEnv "BITRISE_XAMARIN_TEST_FULL_RESULTS_TEXT" v ∈ mainTrace env →
      v ≠ "" :=
  (mainTrace_tokenOk env).2.2

/-- Witness for C8: in an environment that captured the log "LOG", the
exported full-results value is that non-empty string. -/
theorem full_results_only_nonempty_witness : ("LOG" : String) ≠ "" :=
  full_results_only_nonempty envFull "LOG" (by decide)

/-- Counterexample to C1: with two referred projects of which only the first
has an application-bundle output, the run does abort fatally while processing
the second reference, but the test-runner invocation for the first reference
IS executed before that abort -- the bundle-output check of each reference
only precedes that same reference's invocation, not all invocations. -/
theorem first_reference_test_runs :
    Event.runTest "T" "P1" "/out/T.dll" ∈ mainTrace envC1 ∧
    Event.exitFatal ∈ mainTrace envC1 ∧
    Event.runTest "T" "P2" "/out/T.dll" ∉ mainTrace envC1 := by decide

/-- C1 (amended): for a test project whose reference list is `[p1, p2]` where
`p1` resolves to a non-empty application bundle and its test run succeeds,
while `p2` resolves to outputs with no application bundle, the loop ends in a
fatal abort triggered while processing `p2`: the events contain the test
invocation for `p1`, end with the fatal-abort events, and contain no test
invocation for `p2`. -/
theorem second_reference_missing_bundle_fatal (env : MainEnv)
    (pom : List (String × ProjectOutput)) (tname : String) (tpo : TestProjectOutput)
    (log p1 p2 : String) (po1 po2 : ProjectOutput)
    (h1 : lookupA pom p1 = some po1)
    (h2 : computeAppPth po1.outputs ≠ "")
    (h3 : env.setAppEnvOk (computeAppPth po1.outputs) = true)
    (h4 : env.runOk tname p1 = true)
    (h5 : lookupA pom p2 = some po2)
    (h6 : computeAppPth po2.outputs = "") :
    ∃ evs, processReferences env pom tname tpo [p1, p2] log = .error evs ∧
      Event.runTest tname p1 tpo.outputPth ∈ evs ∧
      Event.exitFatal ∈ evs ∧
      Event.runTest tname p2 tpo.outputPth ∉ evs := by
  have hne : p1 ≠ p2 := by
    intro hpp
    rw [hpp, h5] at h1
    injection h1 with h1
    exact h2 (h1 ▸ h6)
  have href1 : processReference env pom tname tpo log p1 =
      .ok ([Event.setAppBundlePath (computeAppPth po1.outputs),
            Event.runTest tname p1 tpo.outputPth],
           (env.readLog tname p1).getD "") := by
    unfold processReference
    simp only [h1]
    rw [if_neg h2, if_neg (by rw [h3]; simp), if_pos h4]
  have href2 : ∀ lg, processReference env pom tname tpo lg p2 = .error failfEvents := by
    intro lg
    unfold processReference
    simp only [h5]
    rw [if_pos h6]
  refine ⟨[Event.setAppBundlePath (computeAppPth po1.outputs),
           Event.runTest tname p1 tpo.outputPth] ++ failfEvents, ?_, ?_, ?_, ?_⟩
  · unfold processReferences
    simp only [href1]
    unfold processReferences
    simp only [href2 ((env.readLog tname p1).getD "")]
  · simp
  · simp [failfEvents]
  · intro hmem
    simp [failfEvents] at hmem
    exact hne hmem.symm

/-- Witness for the amended C1 at the concrete two-reference scenario. -/
theorem second_reference_missing_bundle_fatal_witness :
    ∃ evs, processReferences envC1 pomC1 "T" tpoC1 ["P1", "P2"] "" = .error evs ∧
      Event.runTest "T" "P1" tpoC1.outputPth ∈ evs ∧
      Event.exitFatal ∈ evs ∧
      Event.runTest "T" "P2" tpoC1.outputPth ∉ evs :=
  second_reference_missing_bundle_fatal envC1 pomC1 "T" tpoC1 "" "P1" "P2"
    ⟨[⟨"app", "/out/P1.app"⟩]⟩ ⟨[⟨"dll", "/out/P2.dll"⟩]⟩
    rfl (by decide) rfl rfl rfl rfl
